import Mathlib

/-!
Verification of the slack-md-exporter message pipeline.

The repository is a browser extension (two pipeline variants are present:
`content.js` and a simpler earlier variant).  Its core is a pure
string-rewriting pipeline `formatToMarkdown` applied per message, followed by
an assembly loop in `handleExportClick`.  We embed the string functions
character-for-character, modelling each JavaScript regex `replace` by an
explicit left-to-right scanner with the exact matching semantics of the
regex involved.  Strings are modelled as `List Char`.
-/

set_option maxRecDepth 100000

/-- Strings are modelled as lists of characters. -/
abbrev Str := List Char

/-- Coerce a Lean string literal into the model. -/
def str (s : String) : Str := s.toList

/-- JavaScript `\s` (also the character set removed by `String.trim`):
tab, LF, VT, FF, CR, space, NBSP, and the Unicode space class plus BOM. -/
def isJsWs (c : Char) : Bool :=
  c == '\t' || c == '\n' || c == '\u000B' || c == '\u000C' || c == '\r' ||
  c == ' ' || c == ' ' || c == ' ' ||
  (decide (' ' ≤ c) && decide (c ≤ ' ')) ||
  c == ' ' || c == ' ' || c == ' ' || c == ' ' ||
  c == '　' || c == '﻿'

/-- JavaScript line terminators: the characters not matched by `.` and the
line boundaries seen by the `m` flag. -/
def isLineTerm (c : Char) : Bool :=
  c == '\n' || c == '\r' || c == ' ' || c == ' '

/-- ASCII upper-casing, used to model the case folding of the regex `i` flag
on the (all lower-case ASCII) literal patterns appearing in the source. -/
def upAscii (c : Char) : Char :=
  if 'a' ≤ c ∧ c ≤ 'z' then Char.ofNat (c.toNat - 32) else c

/-- Match a literal lower-case pattern case-insensitively at the front of the
input; on success return the input after the matched prefix. -/
def matchCI : Str → Str → Option Str
  | [], s => some s
  | _ :: _, [] => none
  | p :: ps, c :: cs => if c = p ∨ c = upAscii p then matchCI ps cs else none

/-- Split the input at the first occurrence of character `t`:
returns (text before `t`, text after `t`), or `none` if `t` is absent.
Models `[^t]*t` consumption in the regexes. -/
def splitAtFirst (t : Char) : Str → Option (Str × Str)
  | [] => none
  | c :: r =>
    if c = t then some ([], r)
    else (splitAtFirst t r).map (fun p => (c :: p.1, p.2))

/-- Find the first (case-insensitive) occurrence of a literal pattern:
returns (text before the occurrence, text after it).  Models the lazy
`[\s\S]*?pat` consumption in the regexes. -/
def findSub (pat : Str) : Str → Option (Str × Str)
  | [] => (matchCI pat []).map (fun rest => ([], rest))
  | c :: r =>
    match matchCI pat (c :: r) with
    | some rest => some ([], rest)
    | none => (findSub pat r).map (fun p => (c :: p.1, p.2))

/-- JavaScript `String.prototype.trim`. -/
def trimStr (s : Str) : Str :=
  ((s.dropWhile isJsWs).reverse.dropWhile isJsWs).reverse

/-- JavaScript `content.split('\n')`. -/
def splitOnNl : Str → List Str
  | [] => [[]]
  | c :: r =>
    if c = '\n' then [] :: splitOnNl r
    else
      match splitOnNl r with
      | [] => [[c]]
      | h :: t => (c :: h) :: t

/-! ### `messageText.replace(/<br\s*[^>]*\/?>/gi, '\n')`

Both variants begin with this substitution.  The pattern is equivalent to
`<br` (case-insensitively) followed by any run of non-`>` characters and a
closing `>`; each match is replaced by a newline. -/

/-- One left-to-right pass of the `<br ...>` replacement.  The fuel
argument bounds the recursion; it is initialised to the input length,
which always suffices since every step consumes at least one character. -/
def brScan : Nat → Str → Str
  | 0, s => s
  | _ + 1, [] => []
  | f + 1, c :: r =>
    if c = '<' then
      match r with
      | b :: r2 =>
        if b = 'b' ∨ b = 'B' then
          match r2 with
          | rc :: r3 =>
            if rc = 'r' ∨ rc = 'R' then
              match splitAtFirst '>' r3 with
              | some (_, post) => '\n' :: brScan f post
              | none => c :: brScan f r
            else c :: brScan f r
          | [] => c :: brScan f r
        else c :: brScan f r
      | [] => [c]
    else c :: brScan f r

/-- `messageText.replace(/<br\s*[^>]*\/?>/gi, '\n')` from `formatToMarkdown`. -/
def brToNewline (s : Str) : Str := brScan s.length s

/-! ### `messageText.replace(/<[^>]*>/g, '')` — the final tag stripper. -/

/-- One left-to-right pass of the tag stripper. -/
def stripScan : Nat → Str → Str
  | 0, s => s
  | _ + 1, [] => []
  | f + 1, c :: r =>
    if c = '<' then
      match splitAtFirst '>' r with
      | some (_, post) => stripScan f post
      | none => c :: stripScan f r
    else c :: stripScan f r

/-- `messageText.replace(/<[^>]*>/g, '')` from `formatToMarkdown`. -/
def stripTags (s : Str) : Str := stripScan s.length s

/-! ### `replaceBlockquotes` (content.js)

Regex `/<blockquote[^>]*>([\s\S]*?)<\/blockquote>/gi` with a callback that
splits the captured content on `\n`, prefixes each line with `"> "` after
trimming it, rejoins with `\n` and appends a final `\n`. -/

/-- The callback of `replaceBlockquotes`. -/
def bqReplacement (content : Str) : Str :=
  List.intercalate (str "\n")
    ((splitOnNl content).map (fun line => str "> " ++ trimStr line)) ++ str "\n"

/-- One left-to-right pass of the blockquote replacement. -/
def bqScan : Nat → Str → Str
  | 0, s => s
  | _ + 1, [] => []
  | f + 1, c :: r =>
    if c = '<' then
      match matchCI (str "blockquote") r with
      | some rest =>
        match splitAtFirst '>' rest with
        | some (_, afterOpen) =>
          match findSub (str "</blockquote>") afterOpen with
          | some (content, post) => bqReplacement content ++ bqScan f post
          | none => c :: bqScan f r
        | none => c :: bqScan f r
      | none => c :: bqScan f r
    else c :: bqScan f r

/-- `replaceBlockquotes` from content.js. -/
def replaceBlockquotes (s : Str) : Str := bqScan s.length s

/-! ### `transformHtmlList` (content.js)

Outer regex `/<ol[^>]*data-border="(\d)"[^>]*>([\s\S]*?)<\/ol>/gi`: an
`<ol ...>` opening tag is only matched when the text before its first `>`
contains `data-border="d"` with `d` a single digit (the greedy `[^>]*`
captures the digit of the last such occurrence).  Inside the captured list
content, `/<li[^>]*>(.*?)<\/li>/gi` rewrites each single-line `<li>` item to
`${prefix}${counter}. ${itemContent.trim()}\n`; the counter starts at 0 per
list and the prefix is `"> "` exactly when the captured digit is `1`. -/

/-- Scan an `<ol>` tag body for `data-border="d"` (`d` a digit), returning
the digit of the last occurrence, as the greedy `[^>]*` does. -/
def findBorderAux : Option Char → Str → Option Char
  | acc, [] => acc
  | acc, c :: r =>
    match matchCI (str "data-border=\"") (c :: r) with
    | some rest =>
      match rest with
      | d :: q :: _ =>
        if d.isDigit ∧ q = '"' then findBorderAux (some d) r
        else findBorderAux acc r
      | _ => findBorderAux acc r
    | none => findBorderAux acc r

/-- The digit captured by group 1 of the `<ol>` regex, if the tag body
carries a `data-border="d"` attribute. -/
def findBorderDigit (tagBody : Str) : Option Char := findBorderAux none tagBody

/-- One left-to-right pass of the inner `<li>` replacement, threading the
running counter of the enclosing list. -/
def liScan (pfx : Str) : Nat → Nat → Str → Str
  | _, 0, s => s
  | _, _ + 1, [] => []
  | counter, f + 1, c :: r =>
    if c = '<' then
      match matchCI (str "li") r with
      | some rest =>
        match splitAtFirst '>' rest with
        | some (_, afterOpen) =>
          match findSub (str "</li>") afterOpen with
          | some (content, post) =>
            if content.all (fun x => !(isLineTerm x)) then
              pfx ++ str (Nat.repr (counter + 1)) ++ str ". " ++ trimStr content ++
                '\n' :: liScan pfx (counter + 1) f post
            else c :: liScan pfx counter f r
          | none => c :: liScan pfx counter f r
        | none => c :: liScan pfx counter f r
      | none => c :: liScan pfx counter f r
    else c :: liScan pfx counter f r

/-- One left-to-right pass of the outer `<ol>` replacement. -/
def olScan : Nat → Str → Str
  | 0, s => s
  | _ + 1, [] => []
  | f + 1, c :: r =>
    if c = '<' then
      match matchCI (str "ol") r with
      | some rest =>
        match splitAtFirst '>' rest with
        | some (tagBody, afterOpen) =>
          match findBorderDigit tagBody with
          | some d =>
            match findSub (str "</ol>") afterOpen with
            | some (listContent, post) =>
              liScan (if d = '1' then str "> " else []) 0 listContent.length listContent ++
                olScan f post
            | none => c :: olScan f r
          | none => c :: olScan f r
        | none => c :: olScan f r
      | none => c :: olScan f r
    else c :: olScan f r

/-- `transformHtmlList` from content.js. -/
def transformHtmlList (s : Str) : Str := olScan s.length s

/-! ### `separateQuoteFromText` (content.js)

Regex `/(^>.*\S)\n(\s*[^>].*)/gm` replaced by `$1\n\n$2`.  Group 1 matches a
whole line that starts with `>` and ends in a non-whitespace character,
followed by a literal `\n`.  Group 2 is `\s*[^>].*` with backtracking: the
greedy `\s*` first takes the maximal whitespace run; if the following
character exists and is not `>` it is taken by `[^>]`, otherwise `\s*` gives
one character back (which, being whitespace, is never `>`).  `.*` then takes
the maximal run of non-line-terminator characters. -/

/-- The group-2 match `(\s*[^>].*)` of `separateQuoteFromText` on the text
after the newline; returns the matched text and the remainder. -/
def group2Match (t : Str) : Option (Str × Str) :=
  let w0 := t.takeWhile isJsWs
  match t.dropWhile isJsWs with
  | c :: r =>
    if c = '>' then
      if w0 = [] then none
      else
        some (w0 ++ (c :: r).takeWhile (fun x => !(isLineTerm x)),
              (c :: r).dropWhile (fun x => !(isLineTerm x)))
    else
      some (w0 ++ c :: r.takeWhile (fun x => !(isLineTerm x)),
            r.dropWhile (fun x => !(isLineTerm x)))
  | [] => if w0 = [] then none else some (w0, [])

/-- Whether the position after this text is at a line start (for the `m`
flag's `^` anchor). -/
def endsInLineTerm (s : Str) : Bool :=
  match s.getLast? with
  | some x => isLineTerm x
  | none => false

/-- One left-to-right pass of the quote/text separation, tracking whether
the current position is at a line start. -/
def sqScan : Bool → Nat → Str → Str
  | _, 0, s => s
  | _, _ + 1, [] => []
  | atStart, f + 1, c :: r =>
    if atStart = true ∧ c = '>' then
      let line := r.takeWhile (fun x => !(isLineTerm x))
      match r.dropWhile (fun x => !(isLineTerm x)) with
      | '\n' :: tAfter =>
        if (match line.getLast? with | some lc => !(isJsWs lc) | none => false) then
          match group2Match tAfter with
          | some (g2, post) =>
            '>' :: line ++ '\n' :: '\n' :: g2 ++ sqScan (endsInLineTerm g2) f post
          | none => c :: sqScan false f r
        else c :: sqScan false f r
      | _ => c :: sqScan false f r
    else c :: sqScan (isLineTerm c) f r

/-- `separateQuoteFromText` from content.js. -/
def separateQuoteFromText (s : Str) : Str := sqScan true s.length s

/-! ### Whitespace normalization (earlier variant)

`messageText.trim().replace(/\n\s*\n/g, '\n\n').replace(/\s\s+/g, ' ')`. -/

/-- Index of the last `'\n'` in a list, if any. -/
def lastNlIdx : Str → Option Nat
  | [] => none
  | c :: r =>
    match lastNlIdx r with
    | some j => some (j + 1)
    | none => if c = '\n' then some 0 else none

/-- One pass of `replace(/\n\s*\n/g, '\n\n')`: a newline followed by a
whitespace run containing another newline is collapsed to `\n\n`; the greedy
`\s*` makes the match end at the last newline inside the run. -/
def nlScan : Nat → Str → Str
  | 0, s => s
  | _ + 1, [] => []
  | f + 1, c :: r =>
    if c = '\n' then
      match lastNlIdx (r.takeWhile isJsWs) with
      | some j => '\n' :: '\n' :: nlScan f (r.drop (j + 1))
      | none => c :: nlScan f r
    else c :: nlScan f r

/-- `replace(/\n\s*\n/g, '\n\n')` from the earlier variant's
`formatToMarkdown`. -/
def collapseNlRuns (s : Str) : Str := nlScan s.length s

/-- One pass of `replace(/\s\s+/g, ' ')`: any whitespace run of length at
least two becomes a single space. -/
def wsScan : Nat → Str → Str
  | 0, s => s
  | _ + 1, [] => []
  | f + 1, c :: r =>
    if isJsWs c then
      match r with
      | d :: _ =>
        if isJsWs d then ' ' :: wsScan f (r.dropWhile isJsWs)
        else c :: wsScan f r
      | [] => [c]
    else c :: wsScan f r

/-- `replace(/\s\s+/g, ' ')` from the earlier variant's `formatToMarkdown`. -/
def collapseWsRuns (s : Str) : Str := wsScan s.length s

/-! ### The two `formatToMarkdown` variants -/

/-- `formatToMarkdown` from content.js: line breaks, blockquotes, ordered
lists, tag stripping, then quote/text separation. -/
def formatToMarkdown_v1 (s : Str) : Str :=
  separateQuoteFromText (stripTags (transformHtmlList (replaceBlockquotes (brToNewline s))))

/-- `formatToMarkdown` from the earlier variant: line breaks, tag
stripping, then trim and the two whitespace-collapsing substitutions. -/
def formatToMarkdown_v2 (s : Str) : Str :=
  collapseWsRuns (collapseNlRuns (trimStr (stripTags (brToNewline s))))

/-! ### The export assembly (`handleExportClick`, earlier variant)

The DOM reads are external; we model the loop over the extraction results of
the selected message elements.  `extractRawMessageData` returns either `null`
(no body) or an object with a possibly-`null`/empty author, a possibly
absent timestamp attribute and the non-empty raw HTML, so a record is
`Option RawMessage`.  The timestamp formatter `toDate` builds a `Date` and
renders it with the local calendar fields of the running environment, so
the assembly is parameterized by the formatting function `fmt`. -/

/-- The data extracted from one message element by `extractRawMessageData`.
`author = none` (or an empty string) and `timestamp = none` (or empty) are
the falsy cases of the JavaScript truthiness tests in the loop. -/
structure RawMessage where
  author : Option Str
  timestamp : Option Str
  rawHtml : Str
deriving DecidableEq

/-- The mutable state of the export loop. -/
structure AsmState where
  content : Str
  exportedCount : Nat
  prevTs : Str
deriving DecidableEq

/-- The author line `\n**${rawData.author}**\n`, emitted when the author is
truthy. -/
def authorLine (r : RawMessage) : Str :=
  match r.author with
  | some a => if a ≠ [] then '\n' :: (str "**" ++ a ++ str "**" ++ str "\n") else []
  | none => []

/-- One iteration of the `for (const messageEl of lastNMessages)` loop: skip
a null record; otherwise append the author line, the formatted timestamp
(suppressed when identical to the previously emitted one), and the rewritten
body followed by a newline. -/
def processRecord (fmt : Str → Str) (st : AsmState) (rd : Option RawMessage) : AsmState :=
  match rd with
  | none => st
  | some r =>
    let clean := formatToMarkdown_v2 r.rawHtml
    let c1 := st.content ++ authorLine r
    match r.timestamp with
    | some ts =>
      if ts ≠ [] then
        let cur := fmt ts
        if st.prevTs ≠ cur then
          { content := c1 ++ cur ++ '\n' :: (clean ++ str "\n"),
            exportedCount := st.exportedCount + 1, prevTs := cur }
        else
          { content := c1 ++ clean ++ str "\n",
            exportedCount := st.exportedCount + 1, prevTs := st.prevTs }
      else
        { content := c1 ++ clean ++ str "\n",
          exportedCount := st.exportedCount + 1, prevTs := st.prevTs }
    | none =>
      { content := c1 ++ clean ++ str "\n",
        exportedCount := st.exportedCount + 1, prevTs := st.prevTs }

/-- The whole export loop, starting from empty content, zero exported
messages and an empty previous timestamp. -/
def assemble (fmt : Str → Str) (records : List (Option RawMessage)) : AsmState :=
  records.foldl (processRecord fmt) ⟨[], 0, []⟩

/-- `messagesArray.slice(-count)`: the tail window of the discovered
messages (for a positive requested count). -/
def lastNMessages (xs : List α) (count : Nat) : List α :=
  xs.drop (xs.length - count)

/-- `document.title.replace(' | Slack', '').trim()`: drop the first
occurrence of the literal `" | Slack"`, then trim. -/
def replaceFirst (pat rep : Str) : Str → Str
  | [] => (match matchPre pat [] with | some rest => rep ++ rest | none => [])
  | c :: r =>
    match matchPre pat (c :: r) with
    | some rest => rep ++ rest
    | none => c :: replaceFirst pat rep r
where
  /-- Case-sensitive literal prefix match. -/
  matchPre : Str → Str → Option Str
    | [], s => some s
    | _ :: _, [] => none
    | p :: ps, c :: cs => if c = p then matchPre ps cs else none

/-- The channel title derived from the host page title. -/
def deriveTitle (docTitle : Str) : Str :=
  trimStr (replaceFirst (str " | Slack") [] docTitle)

/-- `channelTitle.replace(/[^a-z0-9]/gi, '_')`: every character outside
`A-Za-z0-9` becomes an underscore. -/
def sanitizeTitle (title : Str) : Str :=
  title.map (fun c =>
    if ('a' ≤ c ∧ c ≤ 'z') ∨ ('A' ≤ c ∧ c ≤ 'Z') ∨ ('0' ≤ c ∧ c ≤ '9') then c else '_')

/-- The produced file name `${channelTitle.replace(/[^a-z0-9]/gi, '_')}_export.md`. -/
def exportFileName (title : Str) : Str := sanitizeTitle title ++ str "_export.md"

/-- The earlier variant's header
`# Conversation Export: ${channelTitle} \n\n (Last ${exportedCount} messages)\n\n---\n\n`. -/
def exportHeader (title : Str) (n : Nat) : Str :=
  str "# Conversation Export: " ++ title ++ str " \n\n (Last " ++
    str (Nat.repr n) ++ str " messages)\n\n---\n\n"

/-- The tail of `handleExportClick` (earlier variant): if no content was
accumulated the export aborts with a user-facing message and no file
(modelled as `none`); otherwise the file name and full content are handed
to the download glue. -/
def exportDocument (fmt : Str → Str) (docTitle : Str)
    (records : List (Option RawMessage)) : Option (Str × Str) :=
  if (assemble fmt records).content = [] then none
  else
    some (exportFileName (deriveTitle docTitle),
      exportHeader (deriveTitle docTitle) (assemble fmt records).exportedCount ++
        (assemble fmt records).content)

/-- The artifact content as the specification words it:
`# <Title>\n\n(Last <N> messages)\n\n---\n\n` followed by the assembled
body.  Stated only to compare against `exportHeader`/`exportDocument`. -/
def specHeader (title : Str) (n : Nat) : Str :=
  str "# " ++ title ++ str "\n\n(Last " ++ str (Nat.repr n) ++ str " messages)\n\n---\n\n"

/-! ### Input classes used by the general theorems -/

/-- Already-plain text: no `<` is followed anywhere later by a `>`.  On such
input none of the tag-consuming regexes of the pipeline can match. -/
def noTags : Str → Bool
  | [] => true
  | c :: r => (if c = '<' then !(r.contains '>') else true) && noTags r

/-- No position where the `<br ...>` pattern could start: every `<` is
followed by something other than `b`/`B`. -/
def noBrStart : Str → Bool
  | [] => true
  | c :: r =>
    (if c = '<' then
      (match r with | b :: _ => !(decide (b = 'b' ∨ b = 'B')) | [] => true)
     else true) && noBrStart r

/-- No position where `<blockquote` matches. -/
def noBqOpen : Str → Bool
  | [] => true
  | c :: r =>
    (if c = '<' then !(matchCI (str "blockquote") r).isSome else true) && noBqOpen r

/-- No position where `<ol` matches. -/
def noOlOpen : Str → Bool
  | [] => true
  | c :: r =>
    (if c = '<' then !(matchCI (str "ol") r).isSome else true) && noOlOpen r

/-- Item text capturable by the inner `<li>` regex: a single line with no
nested tag start. -/
def itemOk (x : Str) : Bool := x.all (fun c => c ≠ '<' && !(isLineTerm c))

/-- The inner HTML of an ordered list with the given items. -/
def olContent (items : List Str) : Str :=
  items.foldr (fun x acc => str "<li>" ++ x ++ str "</li>" ++ acc) []

/-- The text `transformHtmlList` produces for the items of one list:
numbering continues from `counter`, each line carries the given prefix. -/
def renderItems (pfx : Str) : Nat → List Str → Str
  | _, [] => []
  | counter, x :: xs =>
    pfx ++ str (Nat.repr (counter + 1)) ++ str ". " ++ trimStr x ++
      '\n' :: renderItems pfx (counter + 1) xs

/-- The characters that survive whitespace normalization unchanged. -/
def keepC (c : Char) : Bool := !(isJsWs c)

/-! ## Supporting lemmas about the matching primitives -/

theorem upAscii_lt : upAscii '<' = '<' := rfl

theorem matchCI_lt_none (ps : Str) (c : Char) (cs : Str) (h : c ≠ '<') :
    matchCI ('<' :: ps) (c :: cs) = none := by
  simp [matchCI, upAscii_lt, h]

theorem matchCI_mem (ps : Str) : ∀ s rest : Str, matchCI ps s = some rest →
    ∀ a ∈ rest, a ∈ s := by
  induction ps with
  | nil =>
    intro s rest h
    simp only [matchCI, Option.some.injEq] at h
    subst h
    exact fun a ha => ha
  | cons p ps ih =>
    intro s rest h
    cases s with
    | nil => simp [matchCI] at h
    | cons c cs =>
      simp only [matchCI] at h
      split at h
      · exact fun a ha => List.mem_cons_of_mem c (ih cs rest h a ha)
      · exact absurd h (by simp)

theorem matchCI_length_le (ps : Str) : ∀ s rest : Str, matchCI ps s = some rest →
    rest.length ≤ s.length := by
  induction ps with
  | nil =>
    intro s rest h
    simp only [matchCI, Option.some.injEq] at h
    subst h
    exact Nat.le_refl _
  | cons p ps ih =>
    intro s rest h
    cases s with
    | nil => simp [matchCI] at h
    | cons c cs =>
      simp only [matchCI] at h
      split at h
      · exact Nat.le_succ_of_le (ih cs rest h)
      · exact absurd h (by simp)

theorem matchCI_length_lt (p : Char) (ps : Str) (s rest : Str)
    (h : matchCI (p :: ps) s = some rest) : rest.length < s.length := by
  cases s with
  | nil => simp [matchCI] at h
  | cons c cs =>
    simp only [matchCI] at h
    split at h
    · exact Nat.lt_succ_of_le (matchCI_length_le ps cs rest h)
    · exact absurd h (by simp)

theorem splitAtFirst_cons_self (t : Char) (r : Str) :
    splitAtFirst t (t :: r) = some ([], r) := by
  simp [splitAtFirst]

theorem splitAtFirst_cons_ne (t c : Char) (r : Str) (h : c ≠ t) :
    splitAtFirst t (c :: r) = (splitAtFirst t r).map (fun p => (c :: p.1, p.2)) := by
  simp [splitAtFirst, h]

theorem splitAtFirst_none (t : Char) (s : Str) (h : t ∉ s) : splitAtFirst t s = none := by
  induction s with
  | nil => rfl
  | cons c r ih =>
    have hc : c ≠ t := fun e => h (e ▸ List.mem_cons_self c r)
    rw [splitAtFirst_cons_ne t c r hc, ih (fun hm => h (List.mem_cons_of_mem c hm))]
    rfl

theorem splitAtFirst_append (t : Char) (x rest : Str) (hx : ∀ c ∈ x, c ≠ t) :
    splitAtFirst t (x ++ t :: rest) = some (x, rest) := by
  induction x with
  | nil => simpa using splitAtFirst_cons_self t rest
  | cons c r ih =>
    rw [List.cons_append, splitAtFirst_cons_ne t c _ (hx c (by simp)),
      ih (fun a ha => hx a (by simp [ha]))]
    rfl

theorem splitAtFirst_decomp (t : Char) : ∀ s a b : Str,
    splitAtFirst t s = some (a, b) → s = a ++ t :: b := by
  intro s
  induction s with
  | nil => intro a b h; exact Option.noConfusion h
  | cons c r ih =>
    intro a b h
    by_cases hc : c = t
    · subst hc
      rw [splitAtFirst_cons_self] at h
      obtain ⟨rfl, rfl⟩ := Prod.mk.injEq .. ▸ Option.some.injEq .. ▸ h
      rfl
    · rw [splitAtFirst_cons_ne t c r hc] at h
      cases hsp : splitAtFirst t r with
      | none => rw [hsp] at h; simp at h
      | some p =>
        rw [hsp] at h
        simp only [Option.map_some', Option.some.injEq] at h
        obtain ⟨ha, hb⟩ := Prod.mk.injEq .. ▸ h
        subst ha
        subst hb
        rw [List.cons_append]
        exact congrArg (c :: ·) (ih p.1 p.2 (by rw [hsp]))

theorem findSub_head (pat s rest : Str) (h : matchCI pat s = some rest) :
    findSub pat s = some ([], rest) := by
  cases s with
  | nil => simp [findSub, h]
  | cons c r => simp [findSub, h]

theorem findSub_cons_none (pat : Str) (c : Char) (r : Str)
    (h : matchCI pat (c :: r) = none) :
    findSub pat (c :: r) = (findSub pat r).map (fun p => (c :: p.1, p.2)) := by
  simp [findSub, h]

theorem findSub_append_skip (ps x t : Str) (hx : ∀ c ∈ x, c ≠ '<') :
    findSub ('<' :: ps) (x ++ t) =
      (findSub ('<' :: ps) t).map (fun p => (x ++ p.1, p.2)) := by
  induction x with
  | nil =>
    simp only [List.nil_append]
    cases h : findSub ('<' :: ps) t <;> simp
  | cons c r ih =>
    rw [List.cons_append,
      findSub_cons_none _ _ _ (matchCI_lt_none ps c _ (hx c (by simp))),
      ih (fun a ha => hx a (by simp [ha]))]
    cases h : findSub ('<' :: ps) t <;> simp

theorem findSub_length_lt (p : Char) (ps : Str) : ∀ s pre post : Str,
    findSub (p :: ps) s = some (pre, post) → post.length < s.length := by
  intro s
  induction s with
  | nil => intro pre post h; exact Option.noConfusion h
  | cons c r ih =>
    intro pre post h
    cases hm : matchCI (p :: ps) (c :: r) with
    | some rest =>
      rw [findSub_head _ _ _ hm] at h
      simp only [Option.some.injEq] at h
      obtain ⟨_, hb⟩ := Prod.mk.injEq .. ▸ h
      subst hb
      exact matchCI_length_lt p ps _ _ hm
    | none =>
      rw [findSub_cons_none _ _ _ hm] at h
      cases hsp : findSub (p :: ps) r with
      | none => rw [hsp] at h; simp at h
      | some q =>
        rw [hsp] at h
        simp only [Option.map_some', Option.some.injEq] at h
        obtain ⟨_, hb⟩ := Prod.mk.injEq .. ▸ h
        subst hb
        exact Nat.lt_succ_of_lt (ih q.1 q.2 (by rw [hsp]))

/-! ## Theorems -/

/-- C1 (counterexample): on the spec's example input, neither variant of
`formatToMarkdown` produces the claimed `"**Hi** [there](http://x)\nline2"`:
no rule produces `**…**` bold markers or `[text](href)` links. -/
theorem C1_counterexample :
    formatToMarkdown_v1 (str "<strong>Hi</strong> <a href=\"http://x\">there</a><br>line2") ≠
      str "**Hi** [there](http://x)\nline2" ∧
    formatToMarkdown_v2 (str "<strong>Hi</strong> <a href=\"http://x\">there</a><br>line2") ≠
      str "**Hi** [there](http://x)\nline2" := by
  decide

/-- C1 (amended): on the example input, both variants replace the break
marker by a newline but merely strip the bold and anchor tags, keeping
their inner text (the href is discarded), yielding `"Hi there\nline2"`. -/
theorem C1_amended :
    formatToMarkdown_v1 (str "<strong>Hi</strong> <a href=\"http://x\">there</a><br>line2") =
      str "Hi there\nline2" ∧
    formatToMarkdown_v2 (str "<strong>Hi</strong> <a href=\"http://x\">there</a><br>line2") =
      str "Hi there\nline2" := by
  decide

/-- C2 (counterexample): the fence-protection input — a code block whose
text is the entity-encoded `<b>not bold</b>` — is not rewritten to a
triple-backtick fenced block with decoded text: the tags are stripped, the
entities stay encoded, and the output contains no backtick at all. -/
theorem C2_counterexample :
    formatToMarkdown_v1 (str "<pre><code>&lt;b&gt;not bold&lt;/b&gt;</code></pre>") =
      str "&lt;b&gt;not bold&lt;/b&gt;" ∧
    '\u0060' ∉ formatToMarkdown_v1 (str "<pre><code>&lt;b&gt;not bold&lt;/b&gt;</code></pre>") := by
  decide

/-- C3 (code behavior at the failing inputs): in the variant with
whitespace normalization, a blank line (`"a\n\nb"`) and a run of three
newlines (`"a\n\n\nb"`) both collapse to a single space because the second
substitution `\s\s+ → ' '` also matches newline pairs, destroying the
blank line the first substitution just normalized; runs of horizontal
whitespace and single newlines behave as claimed. -/
theorem C3_code_behavior :
    formatToMarkdown_v2 (str "a\n\nb") = str "a b" ∧
    formatToMarkdown_v2 (str "a\n\n\nb") = str "a b" ∧
    formatToMarkdown_v2 (str "a  \t b") = str "a b" ∧
    formatToMarkdown_v2 (str "a\nb") = str "a\nb" := by
  decide

/-- C7 (counterexample): an ordered list without a `data-border` attribute
is not matched by `transformHtmlList` at all; the pipeline just strips its
tags, so no `N. <content>` item line is produced. -/
theorem C7_counterexample :
    transformHtmlList (str "<ol><li>apple</li></ol>") = str "<ol><li>apple</li></ol>" ∧
    formatToMarkdown_v1 (str "<ol><li>apple</li></ol>") = str "apple" := by
  decide

/-- C5: the selected records are exactly the last `count` elements of the
discovered sequence, in original order: the selection is a suffix whose
`i`-th element is the element at index `length - count + i` of the input. -/
theorem C5_tail_window {α : Type} (xs : List α) (count : Nat) (h : count ≤ xs.length) :
    (lastNMessages xs count).length = count ∧
    xs = xs.take (xs.length - count) ++ lastNMessages xs count ∧
    ∀ i, i < count → (lastNMessages xs count)[i]? = xs[xs.length - count + i]? := by
  refine ⟨?_, ?_, ?_⟩
  · simp [lastNMessages]
    omega
  · simp [lastNMessages]
  · intro i _
    simp [lastNMessages, List.getElem?_drop]

/-- C5 (witness): with 500 discovered messages and a requested count of
100, the window is the elements at indices 400..499, in order. -/
theorem C5_tail_window_witness :
    100 ≤ (List.range 500).length ∧
    ((lastNMessages (List.range 500) 100).length = 100 ∧
      List.range 500 = (List.range 500).take ((List.range 500).length - 100) ++
        lastNMessages (List.range 500) 100 ∧
      ∀ i, i < 100 → (lastNMessages (List.range 500) 100)[i]? =
        (List.range 500)[(List.range 500).length - 100 + i]?) :=
  ⟨by decide, C5_tail_window (List.range 500) 100 (by decide)⟩

/-- C10: when the requested count is at least the number of discovered
messages, the tail-window selection returns the whole sequence unchanged. -/
theorem C10_overask {α : Type} (xs : List α) (count : Nat) (h : xs.length ≤ count) :
    lastNMessages xs count = xs := by
  simp [lastNMessages, Nat.sub_eq_zero_of_le h]

/-- C10 (witness): asking for 7 of 3 messages returns all 3 in order. -/
theorem C10_overask_witness :
    ([10, 20, 30] : List Nat).length ≤ 7 ∧ lastNMessages [10, 20, 30] 7 = [10, 20, 30] :=
  ⟨by decide, C10_overask [10, 20, 30] 7 (by decide)⟩

/-- C4 (counterexample): for host title `"General | Slack"` and one
exported message, the produced content is not
`# <Title>\n\n(Last <N> messages)\n\n---\n\n` followed by the body: the
actual header reads `# Conversation Export: <Title> \n\n (Last ...`. -/
theorem C4_counterexample :
    (exportDocument (fun t => t) (str "General | Slack")
        [some ⟨some (str "Ann"), none, str "hi"⟩]).map Prod.snd ≠
      some (specHeader (str "General") 1 ++
        (assemble (fun t => t) [some ⟨some (str "Ann"), none, str "hi"⟩]).content) := by
  decide

/-- C4 (amended): whenever content was assembled, the artifact is named
`<SanitizedTitle>_export.md` with sanitization replacing every character
outside `A-Za-z0-9` by `_`, and its content is
`# Conversation Export: <Title> \n\n (Last <exportedCount> messages)\n\n---\n\n`
followed by the assembled body; for host title `"General | Slack"` the
sanitized base is `General` and the file is `General_export.md`. -/
theorem C4_amended (fmt : Str → Str) (docTitle : Str) (records : List (Option RawMessage))
    (h : (assemble fmt records).content ≠ []) :
    exportDocument fmt docTitle records =
      some (sanitizeTitle (deriveTitle docTitle) ++ str "_export.md",
        str "# Conversation Export: " ++ deriveTitle docTitle ++ str " \n\n (Last " ++
          str (Nat.repr (assemble fmt records).exportedCount) ++ str " messages)\n\n---\n\n" ++
          (assemble fmt records).content) ∧
    deriveTitle (str "General | Slack") = str "General" ∧
    exportFileName (str "General") = str "General_export.md" := by
  refine ⟨?_, by decide, by decide⟩
  unfold exportDocument
  rw [if_neg h]
  rfl

/-- C4 (witness): the amended statement at the concrete example. -/
theorem C4_amended_witness :
    (assemble (fun t => t) [some ⟨some (str "Ann"), none, str "hi"⟩]).content ≠ [] ∧
    (exportDocument (fun t => t) (str "General | Slack")
        [some ⟨some (str "Ann"), none, str "hi"⟩] =
      some (sanitizeTitle (deriveTitle (str "General | Slack")) ++ str "_export.md",
        str "# Conversation Export: " ++ deriveTitle (str "General | Slack") ++
          str " \n\n (Last " ++
          str (Nat.repr (assemble (fun t => t)
            [some ⟨some (str "Ann"), none, str "hi"⟩]).exportedCount) ++
          str " messages)\n\n---\n\n" ++
          (assemble (fun t => t) [some ⟨some (str "Ann"), none, str "hi"⟩]).content) ∧
      deriveTitle (str "General | Slack") = str "General" ∧
      exportFileName (str "General") = str "General_export.md") :=
  ⟨by decide, C4_amended (fun t => t) (str "General | Slack")
    [some ⟨some (str "Ann"), none, str "hi"⟩] (by decide)⟩

/-- A loop iteration whose record's formatted timestamp equals the
remembered one emits no timestamp line. -/
theorem processRecord_suppressed (fmt : Str → Str) (st : AsmState) (r : RawMessage)
    (ts : Str) (e : r.timestamp = some ts) (n : ts ≠ []) (hp : st.prevTs = fmt ts) :
    processRecord fmt st (some r) =
      { content := st.content ++ (authorLine r ++ formatToMarkdown_v2 r.rawHtml ++ str "\n"),
        exportedCount := st.exportedCount + 1, prevTs := st.prevTs } := by
  simp [processRecord, e, n, hp, List.append_assoc]

/-- C6: if two consecutive records both carry truthy timestamps that format
to the same string, the second iteration does not re-emit the timestamp
line: after the first record the remembered timestamp equals the formatted
value, and the second record appends only its author line and body. -/
theorem C6_timestamp_dedup (fmt : Str → Str) (st : AsmState) (r1 r2 : RawMessage)
    (t1 t2 : Str) (e1 : r1.timestamp = some t1) (n1 : t1 ≠ [])
    (e2 : r2.timestamp = some t2) (n2 : t2 ≠ []) (heq : fmt t1 = fmt t2) :
    (processRecord fmt st (some r1)).prevTs = fmt t1 ∧
    processRecord fmt (processRecord fmt st (some r1)) (some r2) =
      { content := (processRecord fmt st (some r1)).content ++
          (authorLine r2 ++ formatToMarkdown_v2 r2.rawHtml ++ str "\n"),
        exportedCount := (processRecord fmt st (some r1)).exportedCount + 1,
        prevTs := (processRecord fmt st (some r1)).prevTs } := by
  have hprev : (processRecord fmt st (some r1)).prevTs = fmt t1 := by
    by_cases hc : st.prevTs = fmt t1 <;> simp [processRecord, e1, n1, hc]
  refine ⟨hprev, ?_⟩
  exact processRecord_suppressed fmt (processRecord fmt st (some r1)) r2 t2 e2 n2
    (hprev.trans heq)

/-- C6 (witness): two consecutive records with the identical formatted
timestamp `"T1"`; the second emits no timestamp line. -/
theorem C6_timestamp_dedup_witness :
    (str "T1" ≠ ([] : Str)) ∧
    ((processRecord (fun t => t) ⟨[], 0, []⟩
        (some ⟨none, some (str "T1"), str "a"⟩)).prevTs = (fun (t : Str) => t) (str "T1") ∧
      processRecord (fun t => t)
          (processRecord (fun t => t) ⟨[], 0, []⟩ (some ⟨none, some (str "T1"), str "a"⟩))
          (some ⟨some (str "Bo"), some (str "T1"), str "b"⟩) =
        { content := (processRecord (fun t => t) ⟨[], 0, []⟩
              (some ⟨none, some (str "T1"), str "a"⟩)).content ++
            (authorLine ⟨some (str "Bo"), some (str "T1"), str "b"⟩ ++
              formatToMarkdown_v2 (str "b") ++ str "\n"),
          exportedCount := (processRecord (fun t => t) ⟨[], 0, []⟩
              (some ⟨none, some (str "T1"), str "a"⟩)).exportedCount + 1,
          prevTs := (processRecord (fun t => t) ⟨[], 0, []⟩
              (some ⟨none, some (str "T1"), str "a"⟩)).prevTs }) :=
  ⟨by decide,
    C6_timestamp_dedup (fun t => t) ⟨[], 0, []⟩
      ⟨none, some (str "T1"), str "a"⟩ ⟨some (str "Bo"), some (str "T1"), str "b"⟩
      (str "T1") (str "T1") rfl (by decide) rfl (by decide) rfl⟩

/-- Each iteration of the export loop only appends to the accumulated
content. -/
theorem processRecord_content_extend (fmt : Str → Str) (st : AsmState)
    (rd : Option RawMessage) :
    ∃ d, (processRecord fmt st rd).content = st.content ++ d := by
  cases rd with
  | none => exact ⟨[], by simp [processRecord]⟩
  | some r =>
    cases e : r.timestamp with
    | none =>
      exact ⟨authorLine r ++ (formatToMarkdown_v2 r.rawHtml ++ str "\n"),
        by simp [processRecord, e, List.append_assoc]⟩
    | some ts =>
      by_cases h : ts = []
      · exact ⟨authorLine r ++ (formatToMarkdown_v2 r.rawHtml ++ str "\n"),
          by simp [processRecord, e, h, List.append_assoc]⟩
      · by_cases h2 : st.prevTs ≠ fmt ts
        · exact ⟨authorLine r ++ (fmt ts ++ '\n' :: (formatToMarkdown_v2 r.rawHtml ++ str "\n")),
            by simp [processRecord, e, h, h2, List.append_assoc]⟩
        · exact ⟨authorLine r ++ (formatToMarkdown_v2 r.rawHtml ++ str "\n"),
            by simp [processRecord, e, h, h2, List.append_assoc]⟩

/-- The rest of the export loop only appends to the accumulated content. -/
theorem foldl_content_extend (fmt : Str → Str) (l : List (Option RawMessage))
    (st : AsmState) :
    ∃ d, (l.foldl (processRecord fmt) st).content = st.content ++ d := by
  induction l generalizing st with
  | nil => exact ⟨[], by simp⟩
  | cons rd l ih =>
    obtain ⟨d1, h1⟩ := processRecord_content_extend fmt st rd
    obtain ⟨d2, h2⟩ := ih (processRecord fmt st rd)
    exact ⟨d1 ++ d2, by rw [List.foldl_cons, h2, h1, List.append_assoc]⟩

/-- A non-null record always contributes content (at least the trailing
newline after its body). -/
theorem processRecord_some_ne_nil (fmt : Str → Str) (st : AsmState) (r : RawMessage) :
    (processRecord fmt st (some r)).content ≠ [] := by
  cases e : r.timestamp with
  | none => simp [processRecord, e, str]
  | some ts =>
    by_cases h : ts = []
    · simp [processRecord, e, h, str]
    · by_cases h2 : st.prevTs ≠ fmt ts
      · simp [processRecord, e, h, h2, str]
      · simp [processRecord, e, h, h2, str]

/-- C8: if every record of the sequence is null the export aborts with the
empty-result signal and produces no artifact; if at least one record is
non-null, a document is produced. -/
theorem C8_empty_result (fmt : Str → Str) (docTitle : Str)
    (records : List (Option RawMessage)) :
    ((∀ rd ∈ records, rd = none) → exportDocument fmt docTitle records = none) ∧
    ((∃ rd ∈ records, rd ≠ none) → (exportDocument fmt docTitle records).isSome = true) := by
  constructor
  · intro hall
    have hid : ∀ st, records.foldl (processRecord fmt) st = st := by
      induction records with
      | nil => intro st; rfl
      | cons rd l ih =>
        intro st
        have hrd : rd = none := hall rd (by simp)
        rw [List.foldl_cons, hrd]
        exact ih (fun x hx => hall x (by simp [hx])) st
    simp [exportDocument, assemble, hid]
  · rintro ⟨rd, hmem, hne⟩
    obtain ⟨l1, l2, rfl⟩ := List.append_of_mem hmem
    cases rd with
    | none => exact absurd rfl hne
    | some r =>
      have hstep := processRecord_some_ne_nil fmt
        (l1.foldl (processRecord fmt) ⟨[], 0, []⟩) r
      obtain ⟨d, hd⟩ := foldl_content_extend fmt l2
        (processRecord fmt (l1.foldl (processRecord fmt) ⟨[], 0, []⟩) (some r))
      have hne' : (assemble fmt (l1 ++ some r :: l2)).content ≠ [] := by
        unfold assemble
        rw [List.foldl_append, List.foldl_cons, hd]
        intro hnil
        exact hstep (List.append_eq_nil.mp hnil).1
      simp [exportDocument, hne']

/-! ## Lemmas: the pipeline on already-plain text (no tags) -/

theorem noTags_cons (c : Char) (r : Str) (h : noTags (c :: r) = true) :
    (c = '<' → '>' ∉ r) ∧ noTags r = true := by
  simp only [noTags, Bool.and_eq_true] at h
  obtain ⟨h1, h2⟩ := h
  refine ⟨?_, h2⟩
  intro hc
  subst hc
  rw [if_pos rfl] at h1
  simpa using h1

/-- On input without tags the `<br>` replacement is the identity: the match
needs a `>` after the `<`. -/
theorem brScan_id_noTags : ∀ f s, noTags s = true → brScan f s = s := by
  intro f
  induction f with
  | zero => intro s _; rfl
  | succ f ih =>
    intro s hs
    cases s with
    | nil => rfl
    | cons c r =>
      obtain ⟨h1, h2⟩ := noTags_cons c r hs
      have hr : brScan f r = r := ih r h2
      by_cases hc : c = '<'
      · subst hc
        have hng : '>' ∉ r := h1 rfl
        cases r with
        | nil => rfl
        | cons b r2 =>
          cases r2 with
          | nil => by_cases hb : b = 'b' ∨ b = 'B' <;> simp [brScan, hb, hr]
          | cons rc r3 =>
            have hn3 : splitAtFirst '>' r3 = none :=
              splitAtFirst_none '>' r3 (fun hm => hng (by simp [hm]))
            by_cases hb : b = 'b' ∨ b = 'B' <;>
              by_cases hrc : rc = 'r' ∨ rc = 'R' <;>
                simp [brScan, hb, hrc, hn3, hr]
      · simp [brScan, hc, hr]

/-- On input without tags the tag stripper is the identity. -/
theorem stripScan_id_noTags : ∀ f s, noTags s = true → stripScan f s = s := by
  intro f
  induction f with
  | zero => intro s _; rfl
  | succ f ih =>
    intro s hs
    cases s with
    | nil => rfl
    | cons c r =>
      obtain ⟨h1, h2⟩ := noTags_cons c r hs
      have hr : stripScan f r = r := ih r h2
      by_cases hc : c = '<'
      · subst hc
        have hn : splitAtFirst '>' r = none := splitAtFirst_none '>' r (h1 rfl)
        simp [stripScan, hn, hr]
      · simp [stripScan, hc, hr]

/-- On input without tags the blockquote replacement is the identity: even
if `<blockquote` matches, the opening tag's `>` is missing. -/
theorem bqScan_id_noTags : ∀ f s, noTags s = true → bqScan f s = s := by
  intro f
  induction f with
  | zero => intro s _; rfl
  | succ f ih =>
    intro s hs
    cases s with
    | nil => rfl
    | cons c r =>
      obtain ⟨h1, h2⟩ := noTags_cons c r hs
      have hr : bqScan f r = r := ih r h2
      by_cases hc : c = '<'
      · subst hc
        cases hm : matchCI (str "blockquote") r with
        | none => simp [bqScan, hm, hr]
        | some rest =>
          have hn : splitAtFirst '>' rest = none :=
            splitAtFirst_none '>' rest
              (fun hmem => h1 rfl (matchCI_mem _ _ _ hm '>' hmem))
          simp [bqScan, hm, hn, hr]
      · simp [bqScan, hc, hr]

/-- On input without tags the list transformation is the identity. -/
theorem olScan_id_noTags : ∀ f s, noTags s = true → olScan f s = s := by
  intro f
  induction f with
  | zero => intro s _; rfl
  | succ f ih =>
    intro s hs
    cases s with
    | nil => rfl
    | cons c r =>
      obtain ⟨h1, h2⟩ := noTags_cons c r hs
      have hr : olScan f r = r := ih r h2
      by_cases hc : c = '<'
      · subst hc
        cases hm : matchCI (str "ol") r with
        | none => simp [olScan, hm, hr]
        | some rest =>
          have hn : splitAtFirst '>' rest = none :=
            splitAtFirst_none '>' rest
              (fun hmem => h1 rfl (matchCI_mem _ _ _ hm '>' hmem))
          simp [olScan, hm, hn, hr]
      · simp [olScan, hc, hr]

/-! ## Lemmas: whitespace-only transformations preserve the non-whitespace
characters -/

theorem group2Match_append (t g2 post : Str) (h : group2Match t = some (g2, post)) :
    g2 ++ post = t := by
  have hsplit := List.takeWhile_append_dropWhile (p := isJsWs) (l := t)
  simp only [group2Match] at h
  split at h
  case _ c r heq =>
    by_cases hc : c = '>'
    · rw [if_pos hc] at h
      split at h
      · exact Option.noConfusion h
      · simp only [Option.some.injEq, Prod.mk.injEq] at h
        obtain ⟨rfl, rfl⟩ := h
        rw [List.append_assoc, List.takeWhile_append_dropWhile, ← heq]
        exact hsplit
    · rw [if_neg hc] at h
      simp only [Option.some.injEq, Prod.mk.injEq] at h
      obtain ⟨rfl, rfl⟩ := h
      rw [List.append_assoc, List.cons_append, List.takeWhile_append_dropWhile, ← heq]
      exact hsplit
  case _ heq =>
    split at h
    · exact Option.noConfusion h
    · simp only [Option.some.injEq, Prod.mk.injEq] at h
      obtain ⟨rfl, rfl⟩ := h
      rw [heq, List.append_nil] at hsplit
      rw [List.append_nil]
      exact hsplit

theorem filter_keepC_all_ws (l : Str) (h : ∀ a ∈ l, isJsWs a = true) :
    l.filter keepC = [] := by
  rw [List.filter_eq_nil_iff]
  intro a ha
  simp [keepC, h a ha]

theorem filter_keepC_dropWhile (s : Str) :
    (s.dropWhile isJsWs).filter keepC = s.filter keepC := by
  induction s with
  | nil => rfl
  | cons c r ih =>
    by_cases hc : isJsWs c
    · rw [List.dropWhile_cons, if_pos hc, ih, List.filter_cons]
      simp [keepC, hc]
    · rw [List.dropWhile_cons, if_neg hc]

/-- JavaScript `trim` only removes whitespace. -/
theorem trimStr_filter (s : Str) : (trimStr s).filter keepC = s.filter keepC := by
  unfold trimStr
  rw [List.filter_reverse, filter_keepC_dropWhile, List.filter_reverse,
    filter_keepC_dropWhile, List.reverse_reverse]

theorem lastNlIdx_lt (w : Str) : ∀ j, lastNlIdx w = some j → j < w.length := by
  induction w with
  | nil => intro j h; exact Option.noConfusion h
  | cons c r ih =>
    intro j h
    simp only [lastNlIdx] at h
    cases hr : lastNlIdx r with
    | some k =>
      rw [hr] at h
      simp only [Option.some.injEq] at h
      subst h
      exact Nat.succ_lt_succ (ih k hr)
    | none =>
      rw [hr] at h
      by_cases hc : c = '\n'
      · rw [if_pos hc] at h
        simp only [Option.some.injEq] at h
        subst h
        exact Nat.succ_pos _
      · rw [if_neg hc] at h
        exact Option.noConfusion h

/-- The newline-run collapsing substitution only touches whitespace. -/
theorem nlScan_filter : ∀ f s, (nlScan f s).filter keepC = s.filter keepC := by
  intro f
  induction f with
  | zero => intro s; rfl
  | succ f ih =>
    intro s
    cases s with
    | nil => rfl
    | cons c r =>
      by_cases hc : c = '\n'
      · subst hc
        cases hj : lastNlIdx (r.takeWhile isJsWs) with
        | none =>
          rw [show nlScan (f + 1) ('\n' :: r) = '\n' :: nlScan f r by simp [nlScan, hj]]
          rw [List.filter_cons, List.filter_cons, ih]
        | some j =>
          have hjlt : j < (r.takeWhile isJsWs).length := lastNlIdx_lt _ j hj
          have htake : ∀ a ∈ r.take (j + 1), isJsWs a = true := by
            intro a ha
            have heq : r.take (j + 1) = (r.takeWhile isJsWs).take (j + 1) := by
              conv_lhs => rw [← List.takeWhile_append_dropWhile (p := isJsWs) (l := r)]
              rw [List.take_append_of_le_length (by omega)]
            rw [heq] at ha
            exact List.mem_takeWhile_imp (List.take_subset _ _ ha)
          rw [show nlScan (f + 1) ('\n' :: r) = '\n' :: '\n' :: nlScan f (r.drop (j + 1)) by
            simp [nlScan, hj]]
          rw [List.filter_cons, List.filter_cons, ih]
          conv_rhs => rw [List.filter_cons,
            show r = r.take (j + 1) ++ r.drop (j + 1) from (List.take_append_drop _ _).symm]
          rw [List.filter_append, filter_keepC_all_ws _ htake]
          simp [keepC, isJsWs]
      · rw [show nlScan (f + 1) (c :: r) = c :: nlScan f r by simp [nlScan, hc]]
        rw [List.filter_cons, List.filter_cons, ih]

/-- The whitespace-run collapsing substitution only touches whitespace. -/
theorem wsScan_filter : ∀ f s, (wsScan f s).filter keepC = s.filter keepC := by
  intro f
  induction f with
  | zero => intro s; rfl
  | succ f ih =>
    intro s
    cases s with
    | nil => rfl
    | cons c r =>
      by_cases hc : isJsWs c
      · cases r with
        | nil => rw [show wsScan (f + 1) [c] = [c] by simp [wsScan, hc]]
        | cons d r2 =>
          have hkc : keepC c = false := by simp [keepC, hc]
          by_cases hd : isJsWs d
          · rw [show wsScan (f + 1) (c :: d :: r2) =
                ' ' :: wsScan f ((d :: r2).dropWhile isJsWs) by simp [wsScan, hc, hd]]
            rw [List.filter_cons, List.filter_cons, ih, filter_keepC_dropWhile,
              hkc, show keepC ' ' = false from by decide]
            simp
          · rw [show wsScan (f + 1) (c :: d :: r2) = c :: wsScan f (d :: r2) by
              simp [wsScan, hc, hd]]
            rw [List.filter_cons, List.filter_cons, ih]
      · rw [show wsScan (f + 1) (c :: r) = c :: wsScan f r by simp [wsScan, hc]]
        rw [List.filter_cons, List.filter_cons, ih]

/-- The quote/text separation only inserts a newline: the non-whitespace
characters are untouched. -/
theorem sqScan_filter : ∀ f b s, (sqScan b f s).filter keepC = s.filter keepC := by
  intro f
  induction f with
  | zero => intro b s; rfl
  | succ f ih =>
    intro b s
    cases s with
    | nil => rfl
    | cons c r =>
      by_cases hcond : b = true ∧ c = '>'
      · obtain ⟨rfl, rfl⟩ := hcond
        simp only [sqScan]
        rw [if_pos (And.intro trivial trivial)]
        split
        · rename_i tAfter heq
          split
          · cases hg : group2Match tAfter with
            | some p =>
              obtain ⟨g2, post⟩ := p
              show List.filter keepC
                  ('>' :: r.takeWhile (fun x => !(isLineTerm x)) ++ '\n' :: '\n' :: g2 ++
                    sqScan (endsInLineTerm g2) f post) =
                List.filter keepC ('>' :: r)
              have hta : g2 ++ post = tAfter := group2Match_append tAfter g2 post hg
              have hr : r = r.takeWhile (fun x => !(isLineTerm x)) ++ '\n' :: tAfter := by
                conv_lhs => rw [← List.takeWhile_append_dropWhile
                  (p := fun x => !(isLineTerm x)) (l := r), heq]
              conv_rhs => rw [hr, ← hta]
              simp only [List.filter_cons, List.filter_append, List.cons_append, ih]
              simp [keepC, isJsWs]
            | none =>
              show List.filter keepC ('>' :: sqScan false f r) = List.filter keepC ('>' :: r)
              rw [List.filter_cons, List.filter_cons, ih]
          · rw [List.filter_cons, List.filter_cons, ih]
        · rw [List.filter_cons, List.filter_cons, ih]
      · rw [show sqScan b (f + 1) (c :: r) = c :: sqScan (isLineTerm c) f r by
          simp [sqScan, hcond]]
        rw [List.filter_cons, List.filter_cons, ih]

/-! ## Lemmas: the pipeline on input with no matching tag openings -/

/-- The `<br>` replacement is the identity when no `<` is followed by b/B. -/
theorem brScan_id_noBr : ∀ f s, noBrStart s = true → brScan f s = s := by
  intro f
  induction f with
  | zero => intro s _; rfl
  | succ f ih =>
    intro s hs
    cases s with
    | nil => rfl
    | cons c r =>
      simp only [noBrStart, Bool.and_eq_true] at hs
      obtain ⟨h1, h2⟩ := hs
      have hr := ih r h2
      by_cases hc : c = '<'
      · subst hc
        rw [if_pos rfl] at h1
        cases r with
        | nil => rfl
        | cons b r2 =>
          have hb : ¬(b = 'b' ∨ b = 'B') := by simpa using h1
          simp [brScan, hb, hr]
      · simp [brScan, hc, hr]

/-- The blockquote replacement is the identity when `<blockquote` never
matches. -/
theorem bqScan_id_noBq : ∀ f s, noBqOpen s = true → bqScan f s = s := by
  intro f
  induction f with
  | zero => intro s _; rfl
  | succ f ih =>
    intro s hs
    cases s with
    | nil => rfl
    | cons c r =>
      simp only [noBqOpen, Bool.and_eq_true] at hs
      obtain ⟨h1, h2⟩ := hs
      have hr := ih r h2
      by_cases hc : c = '<'
      · subst hc
        rw [if_pos rfl] at h1
        have hm : matchCI (str "blockquote") r = none := by
          cases hmm : matchCI (str "blockquote") r with
          | none => rfl
          | some x => rw [hmm] at h1; simp at h1
        simp [bqScan, hm, hr]
      · simp [bqScan, hc, hr]

/-- The list transformation is the identity when `<ol` never matches. -/
theorem olScan_id_noOl : ∀ f s, noOlOpen s = true → olScan f s = s := by
  intro f
  induction f with
  | zero => intro s _; rfl
  | succ f ih =>
    intro s hs
    cases s with
    | nil => rfl
    | cons c r =>
      simp only [noOlOpen, Bool.and_eq_true] at hs
      obtain ⟨h1, h2⟩ := hs
      have hr := ih r h2
      by_cases hc : c = '<'
      · subst hc
        rw [if_pos rfl] at h1
        have hm : matchCI (str "ol") r = none := by
          cases hmm : matchCI (str "ol") r with
          | none => rfl
          | some x => rw [hmm] at h1; simp at h1
        simp [olScan, hm, hr]
      · simp [olScan, hc, hr]

theorem noBrStart_append (x t : Str) (hx : ∀ c ∈ x, c ≠ '<') :
    noBrStart (x ++ t) = noBrStart t := by
  induction x with
  | nil => rfl
  | cons c r ih =>
    rw [List.cons_append]
    simp only [noBrStart]
    rw [if_neg (hx c (by simp)), ih (fun a ha => hx a (by simp [ha]))]
    simp

theorem noBqOpen_append (x t : Str) (hx : ∀ c ∈ x, c ≠ '<') :
    noBqOpen (x ++ t) = noBqOpen t := by
  induction x with
  | nil => rfl
  | cons c r ih =>
    rw [List.cons_append]
    simp only [noBqOpen]
    rw [if_neg (hx c (by simp)), ih (fun a ha => hx a (by simp [ha]))]
    simp

theorem noOlOpen_append (x t : Str) (hx : ∀ c ∈ x, c ≠ '<') :
    noOlOpen (x ++ t) = noOlOpen t := by
  induction x with
  | nil => rfl
  | cons c r ih =>
    rw [List.cons_append]
    simp only [noOlOpen]
    rw [if_neg (hx c (by simp)), ih (fun a ha => hx a (by simp [ha]))]
    simp

/-- Any fuel at least the input length gives the same tag-stripping
result. -/
theorem stripScan_fuel : ∀ f g s, s.length ≤ f → s.length ≤ g →
    stripScan f s = stripScan g s := by
  intro f
  induction f with
  | zero =>
    intro g s hf _
    rw [List.length_eq_zero.mp (Nat.le_zero.mp hf)]
    cases g <;> rfl
  | succ f ih =>
    intro g s hf hg
    cases s with
    | nil => cases g <;> rfl
    | cons c r =>
      cases g with
      | zero => simp at hg
      | succ g =>
        have hf' : r.length ≤ f := by simpa using hf
        have hg' : r.length ≤ g := by simpa using hg
        by_cases hc : c = '<'
        · subst hc
          cases hsp : splitAtFirst '>' r with
          | none => simp [stripScan, hsp, ih g r hf' hg']
          | some p =>
            obtain ⟨a, post⟩ := p
            have hdec := splitAtFirst_decomp '>' r a post hsp
            have hlen : post.length ≤ r.length := by
              rw [hdec]; simp; omega
            simp [stripScan, hsp, ih g post (le_trans hlen hf') (le_trans hlen hg')]
        · simp [stripScan, hc, ih g r hf' hg']

theorem stripTags_cons_ne (c : Char) (t : Str) (h : c ≠ '<') :
    stripTags (c :: t) = c :: stripTags t := by
  show stripScan (t.length + 1) (c :: t) = c :: stripScan t.length t
  simp [stripScan, h]

/-- Stripping a complete tag `<a>` removes it entirely. -/
theorem stripTags_tag (a t : Str) (ha : '>' ∉ a) :
    stripTags ('<' :: (a ++ '>' :: t)) = stripTags t := by
  show stripScan ((a ++ '>' :: t).length + 1) ('<' :: (a ++ '>' :: t)) = stripTags t
  have hsp : splitAtFirst '>' (a ++ '>' :: t) = some (a, t) :=
    splitAtFirst_append '>' a t (fun c hc hEq => ha (hEq ▸ hc))
  simp only [stripScan, if_pos rfl, hsp]
  exact stripScan_fuel _ _ t (by simp; omega) (le_refl _)

theorem stripTags_append_clean (x t : Str) (hx : ∀ c ∈ x, c ≠ '<') :
    stripTags (x ++ t) = x ++ stripTags t := by
  induction x with
  | nil => simp
  | cons c r ih =>
    rw [List.cons_append, stripTags_cons_ne c _ (hx c (by simp)),
      ih (fun a ha => hx a (by simp [ha])), List.cons_append]

/-- The quote/text separation is the identity on text without `>`. -/
theorem sqScan_id_noGt : ∀ f b s, (∀ c ∈ s, c ≠ '>') → sqScan b f s = s := by
  intro f
  induction f with
  | zero => intro b s _; rfl
  | succ f ih =>
    intro b s hs
    cases s with
    | nil => rfl
    | cons c r =>
      have hcond : ¬(b = true ∧ c = '>') := fun hh => hs c (by simp) hh.2
      rw [show sqScan b (f + 1) (c :: r) = c :: sqScan (isLineTerm c) f r by
        simp [sqScan, hcond]]
      rw [ih _ r (fun a ha => hs a (by simp [ha]))]

/-! ## Lemmas: `transformHtmlList` on well-formed bordered lists -/

theorem findSub_append_skip2 (pat x t : Str) (hp : pat.head? = some '<')
    (hx : ∀ c ∈ x, c ≠ '<') :
    findSub pat (x ++ t) = (findSub pat t).map (fun p => (x ++ p.1, p.2)) := by
  cases pat with
  | nil => simp at hp
  | cons p ps =>
    simp only [List.head?, Option.some.injEq] at hp
    subst hp
    exact findSub_append_skip ps x t hx

theorem matchCI_ol_ol (t : Str) : matchCI (str "ol") ('o' :: 'l' :: t) = some t := rfl

theorem matchCI_li_li (t : Str) : matchCI (str "li") ('l' :: 'i' :: t) = some t := rfl

/-- Any fuel at least the input length gives the same `<li>` rewriting. -/
theorem liScan_fuel (pfx : Str) : ∀ f g k s, s.length ≤ f → s.length ≤ g →
    liScan pfx k f s = liScan pfx k g s := by
  intro f
  induction f with
  | zero =>
    intro g k s hf _
    rw [List.length_eq_zero.mp (Nat.le_zero.mp hf)]
    cases g <;> rfl
  | succ f ih =>
    intro g k s hf hg
    cases s with
    | nil => cases g <;> rfl
    | cons c r =>
      cases g with
      | zero => simp at hg
      | succ g =>
        have hf' : r.length ≤ f := by simpa using hf
        have hg' : r.length ≤ g := by simpa using hg
        by_cases hc : c = '<'
        · subst hc
          cases hm : matchCI (str "li") r with
          | none => simp [liScan, hm, ih g k r hf' hg']
          | some rest =>
            cases hsp : splitAtFirst '>' rest with
            | none => simp [liScan, hm, hsp, ih g k r hf' hg']
            | some p =>
              obtain ⟨tb, afterOpen⟩ := p
              cases hfd : findSub (str "</li>") afterOpen with
              | none => simp [liScan, hm, hsp, hfd, ih g k r hf' hg']
              | some q =>
                obtain ⟨content, post⟩ := q
                have hlen : post.length ≤ r.length := by
                  have l1 : rest.length < r.length := matchCI_length_lt 'l' (str "i") r rest hm
                  have l2 : rest = tb ++ '>' :: afterOpen :=
                    splitAtFirst_decomp '>' rest tb afterOpen hsp
                  have l3 : post.length < afterOpen.length :=
                    findSub_length_lt '<' (str "/li>") afterOpen content post hfd
                  have l4 : rest.length = tb.length + (afterOpen.length + 1) := by
                    rw [l2]; simp
                  omega
                by_cases hall : content.all (fun x => !(isLineTerm x)) = true
                · simp [liScan, hm, hsp, hfd, hall,
                    ih g (k + 1) post (le_trans hlen hf') (le_trans hlen hg')]
                · simp [liScan, hm, hsp, hfd, hall, ih g k r hf' hg']
        · simp [liScan, hc, ih g k r hf' hg']

/-- Any fuel at least the input length gives the same `<ol>` rewriting. -/
theorem olScan_fuel : ∀ f g s, s.length ≤ f → s.length ≤ g →
    olScan f s = olScan g s := by
  intro f
  induction f with
  | zero =>
    intro g s hf _
    rw [List.length_eq_zero.mp (Nat.le_zero.mp hf)]
    cases g <;> rfl
  | succ f ih =>
    intro g s hf hg
    cases s with
    | nil => cases g <;> rfl
    | cons c r =>
      cases g with
      | zero => simp at hg
      | succ g =>
        have hf' : r.length ≤ f := by simpa using hf
        have hg' : r.length ≤ g := by simpa using hg
        by_cases hc : c = '<'
        · subst hc
          cases hm : matchCI (str "ol") r with
          | none => simp [olScan, hm, ih g r hf' hg']
          | some rest =>
            cases hsp : splitAtFirst '>' rest with
            | none => simp [olScan, hm, hsp, ih g r hf' hg']
            | some p =>
              obtain ⟨tb, afterOpen⟩ := p
              cases hbd : findBorderDigit tb with
              | none => simp [olScan, hm, hsp, hbd, ih g r hf' hg']
              | some d =>
                cases hfd : findSub (str "</ol>") afterOpen with
                | none => simp [olScan, hm, hsp, hbd, hfd, ih g r hf' hg']
                | some q =>
                  obtain ⟨content, post⟩ := q
                  have hlen : post.length ≤ r.length := by
                    have l1 : rest.length < r.length := matchCI_length_lt 'o' (str "l") r rest hm
                    have l2 : rest = tb ++ '>' :: afterOpen :=
                      splitAtFirst_decomp '>' rest tb afterOpen hsp
                    have l3 : post.length < afterOpen.length :=
                      findSub_length_lt '<' (str "/ol>") afterOpen content post hfd
                    have l4 : rest.length = tb.length + (afterOpen.length + 1) := by
                      rw [l2]; simp
                    omega
                  simp [olScan, hm, hsp, hbd, hfd,
                    ih g post (le_trans hlen hf') (le_trans hlen hg')]
        · simp [olScan, hc, ih g r hf' hg']

/-- The inner `<li>` rewriting on the exact content of a well-formed list:
every item becomes `prefix ++ N. ++ trimmed item ++ newline`, numbering
continuing from the counter. -/
theorem liScan_olContent (pfx : Str) :
    ∀ (items : List Str), (∀ x ∈ items, itemOk x = true) →
    ∀ k f, (olContent items).length ≤ f →
    liScan pfx k f (olContent items) = renderItems pfx k items := by
  intro items
  induction items with
  | nil => intro _ k f _; cases f <;> rfl
  | cons x xs ih =>
    intro h k f hf
    have hx : itemOk x = true := h x (by simp)
    have hxlt : ∀ c ∈ x, c ≠ '<' := by
      intro c hc
      have h2 := List.all_eq_true.mp hx c hc
      simp only [Bool.and_eq_true, decide_eq_true_eq] at h2
      exact h2.1
    have hxnl : x.all (fun c => !(isLineTerm c)) = true := by
      rw [List.all_eq_true]
      intro c hc
      have h2 := List.all_eq_true.mp hx c hc
      simp only [Bool.and_eq_true, decide_eq_true_eq] at h2
      simpa using h2.2
    have hlen : (olContent (x :: xs)).length = 9 + (x.length + (olContent xs).length) := by
      show ('<' :: 'l' :: 'i' :: '>' ::
        ((x ++ ('<' :: '/' :: 'l' :: 'i' :: '>' :: ([] : Str))) ++ olContent xs)).length = _
      simp [List.length_append]
      omega
    cases f with
    | zero => rw [hlen] at hf; omega
    | succ f =>
      show liScan pfx k (f + 1)
          ('<' :: 'l' :: 'i' :: '>' :: ((x ++ str "</li>") ++ olContent xs)) =
        renderItems pfx k (x :: xs)
      have hstep3 : findSub (str "</li>") ((x ++ str "</li>") ++ olContent xs) =
          some (x, olContent xs) := by
        rw [List.append_assoc,
          findSub_append_skip2 (str "</li>") x _ rfl hxlt,
          findSub_head (str "</li>") (str "</li>" ++ olContent xs) (olContent xs) rfl]
        simp
      simp only [liScan, reduceIte, matchCI_li_li, splitAtFirst_cons_self, hstep3, hxnl,
        if_true]
      rw [ih (fun y hy => h y (by simp [hy])) (k + 1) f (by rw [hlen] at hf; omega)]
      rfl

/-- Looking for `</ol>` skips the whole well-formed item content: the first
occurrence is the appended closing tag. -/
theorem findSub_olContent :
    ∀ (items : List Str), (∀ x ∈ items, ∀ c ∈ x, c ≠ '<') →
    ∀ t, findSub (str "</ol>") (olContent items ++ (str "</ol>" ++ t)) =
      some (olContent items, t) := by
  intro items
  induction items with
  | nil =>
    intro _ t
    rw [show olContent ([] : List Str) ++ (str "</ol>" ++ t) = str "</ol>" ++ t by
      simp [olContent]]
    rw [findSub_head (str "</ol>") (str "</ol>" ++ t) t rfl]
    rfl
  | cons x xs ih =>
    intro h t
    have hxlt : ∀ c ∈ x, c ≠ '<' := h x (by simp)
    show findSub (str "</ol>")
        ('<' :: 'l' :: 'i' :: '>' :: (((x ++ str "</li>") ++ olContent xs) ++
          (str "</ol>" ++ t))) = some (olContent (x :: xs), t)
    rw [findSub_cons_none _ _ _ (rfl :
        matchCI (str "</ol>") ('<' :: 'l' :: 'i' :: '>' :: (((x ++ str "</li>") ++
          olContent xs) ++ (str "</ol>" ++ t))) = none),
      findSub_cons_none _ _ _ (rfl :
        matchCI (str "</ol>") ('l' :: 'i' :: '>' :: (((x ++ str "</li>") ++
          olContent xs) ++ (str "</ol>" ++ t))) = none),
      findSub_cons_none _ _ _ (rfl :
        matchCI (str "</ol>") ('i' :: '>' :: (((x ++ str "</li>") ++
          olContent xs) ++ (str "</ol>" ++ t))) = none),
      findSub_cons_none _ _ _ (rfl :
        matchCI (str "</ol>") ('>' :: (((x ++ str "</li>") ++
          olContent xs) ++ (str "</ol>" ++ t))) = none)]
    rw [List.append_assoc, List.append_assoc,
      findSub_append_skip2 (str "</ol>") x _ rfl hxlt]
    rw [show str "</li>" ++ (olContent xs ++ (str "</ol>" ++ t)) =
      '<' :: '/' :: 'l' :: 'i' :: '>' :: (olContent xs ++ (str "</ol>" ++ t)) from rfl]
    rw [findSub_cons_none _ _ _ (rfl :
        matchCI (str "</ol>") ('<' :: '/' :: 'l' :: 'i' :: '>' ::
          (olContent xs ++ (str "</ol>" ++ t))) = none),
      findSub_cons_none _ _ _ (rfl :
        matchCI (str "</ol>") ('/' :: 'l' :: 'i' :: '>' ::
          (olContent xs ++ (str "</ol>" ++ t))) = none),
      findSub_cons_none _ _ _ (rfl :
        matchCI (str "</ol>") ('l' :: 'i' :: '>' ::
          (olContent xs ++ (str "</ol>" ++ t))) = none),
      findSub_cons_none _ _ _ (rfl :
        matchCI (str "</ol>") ('i' :: '>' ::
          (olContent xs ++ (str "</ol>" ++ t))) = none),
      findSub_cons_none _ _ _ (rfl :
        matchCI (str "</ol>") ('>' ::
          (olContent xs ++ (str "</ol>" ++ t))) = none)]
    rw [ih (fun y hy => h y (by simp [hy])) t]
    show some ('<' :: 'l' :: 'i' :: '>' :: (x ++ ('<' :: '/' :: 'l' :: 'i' :: '>' ::
      olContent xs)), t) = some (olContent (x :: xs), t)
    have heq : olContent (x :: xs) = '<' :: 'l' :: 'i' :: '>' ::
        (x ++ ('<' :: '/' :: 'l' :: 'i' :: '>' :: olContent xs)) := by
      show ('<' :: 'l' :: 'i' :: '>' :: ((x ++ str "</li>") ++ olContent xs)) = _
      rw [List.append_assoc]
      rfl
    rw [heq]

/-- One `<ol ... data-border="d" ...>` element at the head of the input is
rewritten by `transformHtmlList` to its numbered items, and scanning
continues after it. -/
theorem transformHtmlList_step (tagBody : Str) (d : Char) (content u : Str)
    (htag : ∀ c ∈ tagBody, c ≠ '>')
    (hbd : findBorderDigit tagBody = some d)
    (hfs : findSub (str "</ol>") (content ++ (str "</ol>" ++ u)) = some (content, u)) :
    transformHtmlList ('<' :: 'o' :: 'l' :: (tagBody ++ '>' :: (content ++ (str "</ol>" ++ u)))) =
      liScan (if d = '1' then str "> " else []) 0 content.length content ++
        transformHtmlList u := by
  show olScan (('o' :: 'l' :: (tagBody ++ '>' :: (content ++ (str "</ol>" ++ u)))).length + 1)
      ('<' :: 'o' :: 'l' :: (tagBody ++ '>' :: (content ++ (str "</ol>" ++ u)))) = _
  simp only [olScan, reduceIte, matchCI_ol_ol,
    splitAtFirst_append '>' tagBody _ htag, hbd, hfs]
  congr 1
  exact olScan_fuel _ _ u (by simp [List.length_append, str]; omega) (le_refl _)

/-- C7 (amended): two sequential ordered lists carrying `data-border`
digit attributes, with single-line markup-free items, are each rewritten to
numbered item lines with the counter restarting at 1 per list; the
`data-border="1"` list gets a `"> "` prefix on every item line, the
`data-border="0"` list gets none. -/
theorem C7_amended (xs ys : List Str)
    (hxs : ∀ x ∈ xs, itemOk x = true) (hys : ∀ y ∈ ys, itemOk y = true) :
    transformHtmlList (str "<ol data-border=\"0\">" ++ olContent xs ++ str "</ol>" ++
        str "<ol data-border=\"1\">" ++ olContent ys ++ str "</ol>") =
      renderItems [] 0 xs ++ renderItems (str "> ") 0 ys := by
  have hxlt : ∀ x ∈ xs, ∀ c ∈ x, c ≠ '<' := by
    intro x hx c hc
    have h2 := List.all_eq_true.mp (hxs x hx) c hc
    simp only [Bool.and_eq_true, decide_eq_true_eq] at h2
    exact h2.1
  have hylt : ∀ y ∈ ys, ∀ c ∈ y, c ≠ '<' := by
    intro y hy c hc
    have h2 := List.all_eq_true.mp (hys y hy) c hc
    simp only [Bool.and_eq_true, decide_eq_true_eq] at h2
    exact h2.1
  have hshape : str "<ol data-border=\"0\">" ++ olContent xs ++ str "</ol>" ++
      str "<ol data-border=\"1\">" ++ olContent ys ++ str "</ol>" =
    str "<ol data-border=\"0\">" ++ (olContent xs ++ (str "</ol>" ++
      (str "<ol data-border=\"1\">" ++ (olContent ys ++ (str "</ol>" ++ ([] : Str)))))) := by
    simp [List.append_assoc]
  rw [hshape]
  rw [show transformHtmlList (str "<ol data-border=\"0\">" ++ (olContent xs ++ (str "</ol>" ++
        (str "<ol data-border=\"1\">" ++ (olContent ys ++ (str "</ol>" ++ ([] : Str))))))) =
      liScan (if ('0' : Char) = '1' then str "> " else []) 0 (olContent xs).length
          (olContent xs) ++
        transformHtmlList (str "<ol data-border=\"1\">" ++
          (olContent ys ++ (str "</ol>" ++ ([] : Str)))) from
    transformHtmlList_step (str " data-border=\"0\"") '0' (olContent xs)
      (str "<ol data-border=\"1\">" ++ (olContent ys ++ (str "</ol>" ++ ([] : Str))))
      (by decide) rfl (findSub_olContent xs hxlt _)]
  rw [show transformHtmlList (str "<ol data-border=\"1\">" ++
        (olContent ys ++ (str "</ol>" ++ ([] : Str)))) =
      liScan (if ('1' : Char) = '1' then str "> " else []) 0 (olContent ys).length
          (olContent ys) ++
        transformHtmlList ([] : Str) from
    transformHtmlList_step (str " data-border=\"1\"") '1' (olContent ys) ([] : Str)
      (by decide) rfl (findSub_olContent ys hylt _)]
  rw [show (if ('0' : Char) = '1' then str "> " else []) = ([] : Str) from rfl,
    show (if ('1' : Char) = '1' then str "> " else []) = str "> " from rfl,
    show transformHtmlList ([] : Str) = [] from rfl,
    liScan_olContent [] xs hxs 0 _ (le_refl _),
    liScan_olContent (str "> ") ys hys 0 _ (le_refl _),
    List.append_nil]

/-- C7 (amended, witness): two concrete sequential lists, the second
bordered: numbering restarts at 1 and the bordered list's lines carry the
quote prefix. -/
theorem C7_amended_witness :
    (∀ x ∈ [str "alpha", str "beta"], itemOk x = true) ∧
    (∀ y ∈ [str "gamma"], itemOk y = true) ∧
    transformHtmlList (str "<ol data-border=\"0\">" ++ olContent [str "alpha", str "beta"] ++
        str "</ol>" ++ str "<ol data-border=\"1\">" ++ olContent [str "gamma"] ++
        str "</ol>") =
      renderItems [] 0 [str "alpha", str "beta"] ++ renderItems (str "> ") 0 [str "gamma"] :=
  ⟨by decide, by decide, C7_amended [str "alpha", str "beta"] [str "gamma"]
    (by decide) (by decide)⟩

theorem matchCI_bq_p (t : Str) : matchCI (str "blockquote") ('p' :: t) = none := rfl

theorem matchCI_bq_c (t : Str) : matchCI (str "blockquote") ('c' :: t) = none := rfl

theorem matchCI_bq_slash (t : Str) : matchCI (str "blockquote") ('/' :: t) = none := rfl

theorem matchCI_ol_p (t : Str) : matchCI (str "ol") ('p' :: t) = none := rfl

theorem matchCI_ol_c (t : Str) : matchCI (str "ol") ('c' :: t) = none := rfl

theorem matchCI_ol_slash (t : Str) : matchCI (str "ol") ('/' :: t) = none := rfl

/-- C2 (amended): a `pre`+`code` construct is handled by the generic tag
stripper alone: for any inner text free of `<` and `>` (in particular any
entity-encoded code), the full-variant rewriter returns the inner text
verbatim — entities are not decoded and no fence is added. -/
theorem C2_amended (inner : Str)
    (h : inner.all (fun c => c ≠ '<' && c ≠ '>') = true) :
    formatToMarkdown_v1 (str "<pre><code>" ++ inner ++ str "</code></pre>") = inner := by
  have hboth : ∀ c ∈ inner, c ≠ '<' ∧ c ≠ '>' := by
    intro c hc
    have h2 := List.all_eq_true.mp h c hc
    simpa using h2
  have hlt : ∀ c ∈ inner, c ≠ '<' := fun c hc => (hboth c hc).1
  have hgt : ∀ c ∈ inner, c ≠ '>' := fun c hc => (hboth c hc).2
  have hbrP : noBrStart (str "<pre><code>" ++ inner ++ str "</code></pre>") = true := by
    show noBrStart ('<' :: 'p' :: 'r' :: 'e' :: '>' :: '<' :: 'c' :: 'o' :: 'd' :: 'e' :: '>' ::
      (inner ++ str "</code></pre>")) = true
    simp only [noBrStart]
    rw [noBrStart_append inner _ hlt]
    simp
    decide
  have hbqP : noBqOpen (str "<pre><code>" ++ inner ++ str "</code></pre>") = true := by
    show noBqOpen ('<' :: 'p' :: 'r' :: 'e' :: '>' :: '<' :: 'c' :: 'o' :: 'd' :: 'e' :: '>' ::
      (inner ++ str "</code></pre>")) = true
    simp only [noBqOpen, matchCI_bq_p, matchCI_bq_c]
    rw [noBqOpen_append inner _ hlt]
    simp
    decide
  have holP : noOlOpen (str "<pre><code>" ++ inner ++ str "</code></pre>") = true := by
    show noOlOpen ('<' :: 'p' :: 'r' :: 'e' :: '>' :: '<' :: 'c' :: 'o' :: 'd' :: 'e' :: '>' ::
      (inner ++ str "</code></pre>")) = true
    simp only [noOlOpen, matchCI_ol_p, matchCI_ol_c]
    rw [noOlOpen_append inner _ hlt]
    simp
    decide
  have h4 : stripTags (str "<pre><code>" ++ inner ++ str "</code></pre>") = inner := by
    show stripTags ('<' :: (str "pre" ++ '>' :: ('<' :: (str "code" ++ '>' ::
      (inner ++ ('<' :: (str "/code" ++ '>' ::
        ('<' :: (str "/pre" ++ '>' :: ([] : Str)))))))))) = inner
    rw [stripTags_tag (str "pre") _ (by decide), stripTags_tag (str "code") _ (by decide),
      stripTags_append_clean inner _ hlt, stripTags_tag (str "/code") _ (by decide),
      stripTags_tag (str "/pre") _ (by decide)]
    rw [show stripTags ([] : Str) = [] from rfl, List.append_nil]
  unfold formatToMarkdown_v1
  rw [show brToNewline (str "<pre><code>" ++ inner ++ str "</code></pre>") =
      str "<pre><code>" ++ inner ++ str "</code></pre>" from brScan_id_noBr _ _ hbrP,
    show replaceBlockquotes (str "<pre><code>" ++ inner ++ str "</code></pre>") =
      str "<pre><code>" ++ inner ++ str "</code></pre>" from bqScan_id_noBq _ _ hbqP,
    show transformHtmlList (str "<pre><code>" ++ inner ++ str "</code></pre>") =
      str "<pre><code>" ++ inner ++ str "</code></pre>" from olScan_id_noOl _ _ holP,
    h4]
  exact sqScan_id_noGt _ _ _ hgt

/-- C2 (amended, witness): the fence-protection example, entity-encoded. -/
theorem C2_amended_witness :
    (str "&lt;b&gt;not bold&lt;/b&gt;").all (fun c => c ≠ '<' && c ≠ '>') = true ∧
    formatToMarkdown_v1
        (str "<pre><code>" ++ str "&lt;b&gt;not bold&lt;/b&gt;" ++ str "</code></pre>") =
      str "&lt;b&gt;not bold&lt;/b&gt;" :=
  ⟨by decide, C2_amended (str "&lt;b&gt;not bold&lt;/b&gt;") (by decide)⟩

/-- C9: feeding already-plain text (no tags) through either Rewriter variant
preserves every non-whitespace character in order: only whitespace is added,
removed or altered (the full variant may insert a blank line after a quoted
line, the earlier variant normalizes whitespace). -/
theorem C9_plain_text (s : Str) (h : noTags s = true) :
    (formatToMarkdown_v1 s).filter keepC = s.filter keepC ∧
    (formatToMarkdown_v2 s).filter keepC = s.filter keepC := by
  constructor
  · unfold formatToMarkdown_v1 brToNewline replaceBlockquotes transformHtmlList stripTags
      separateQuoteFromText
    rw [brScan_id_noTags _ _ h, bqScan_id_noTags _ _ h, olScan_id_noTags _ _ h,
      stripScan_id_noTags _ _ h]
    exact sqScan_filter _ _ _
  · unfold formatToMarkdown_v2 brToNewline stripTags collapseNlRuns collapseWsRuns
    rw [brScan_id_noTags _ _ h, stripScan_id_noTags _ _ h]
    rw [wsScan_filter, nlScan_filter, trimStr_filter]

/-- C9 (witness): a plain text with quote markers and blank lines keeps all
its non-whitespace characters through both variants. -/
theorem C9_plain_text_witness :
    noTags (str "plain > text, no tags\n\n> quoted line\nafter") = true ∧
    ((formatToMarkdown_v1 (str "plain > text, no tags\n\n> quoted line\nafter")).filter keepC =
        (str "plain > text, no tags\n\n> quoted line\nafter").filter keepC ∧
      (formatToMarkdown_v2 (str "plain > text, no tags\n\n> quoted line\nafter")).filter keepC =
        (str "plain > text, no tags\n\n> quoted line\nafter").filter keepC) :=
  ⟨by decide, C9_plain_text _ (by decide)⟩

/-- C8 (witness): two null records produce no artifact; one non-null record
produces a document. -/
theorem C8_empty_result_witness :
    ((∀ rd ∈ ([none, none] : List (Option RawMessage)), rd = none) ∧
      exportDocument (fun t => t) (str "T") [none, none] = none) ∧
    ((∃ rd ∈ ([some ⟨none, none, str "x"⟩] : List (Option RawMessage)), rd ≠ none) ∧
      (exportDocument (fun t => t) (str "T") [some ⟨none, none, str "x"⟩]).isSome = true) :=
  ⟨⟨by decide, (C8_empty_result (fun t => t) (str "T") [none, none]).1 (by decide)⟩,
   ⟨by decide,
     (C8_empty_result (fun t => t) (str "T") [some ⟨none, none, str "x"⟩]).2 (by decide)⟩⟩
